import Mathlib

/-!
Verification of the Noolang LSP server core (`src/lsp/src/server.rs`,
`src/lsp/src/parser.rs`).

The Rust code is shallowly embedded: buffers are Lean `String`s whose UTF-8
byte sequences are made explicit as `List Nat`, Rust `Vec<char>` becomes
`List Char`, fallible operations return `Except`/`Option`, and the
`serde_json::Value` syntax tree becomes a mutual inductive `Json` type.
All definitions are executable and structurally recursive so that concrete
scenarios evaluate by `decide`/`rfl`.
-/

/-- ASCII whitespace test used where Rust calls `char::is_whitespace` /
`str::trim` (the inputs of interest are ASCII). -/
def isWs (c : Char) : Bool :=
  c = ' ' || c = '\t' || c = '\n' || c = '\r'

/-- UTF-8 encoding of one scalar value, byte by byte; mirrors Rust's
`char` encoding (and `len_utf8` via its length). -/
def utf8EncodeChar (c : Char) : List Nat :=
  let n := c.toNat
  if n < 0x80 then [n]
  else if n < 0x800 then
    [0xC0 ||| (n >>> 6), 0x80 ||| (n &&& 0x3F)]
  else if n < 0x10000 then
    [0xE0 ||| (n >>> 12), 0x80 ||| ((n >>> 6) &&& 0x3F), 0x80 ||| (n &&& 0x3F)]
  else
    [0xF0 ||| (n >>> 18), 0x80 ||| ((n >>> 12) &&& 0x3F),
     0x80 ||| ((n >>> 6) &&& 0x3F), 0x80 ||| (n &&& 0x3F)]

/-- UTF-8 byte sequence of a character list (a Rust `String`'s contents). -/
def utf8Str (s : List Char) : List Nat :=
  s.flatMap utf8EncodeChar

/-- Byte length of a character list, i.e. Rust `str::len`. -/
def byteLen (s : List Char) : Nat :=
  (utf8Str s).length

/-- Drop one leading carriage return from a REVERSED line accumulator;
this realises the `\r`-stripping of Rust `str::lines` at a `\n`. -/
def stripCrRev : List Char → List Char
  | [] => []
  | c :: rest => if c = '\r' then rest else c :: rest

/-- Worker for `rustLines`: scan characters, splitting at `'\n'`,
keeping the current (reversed) line in `acc`. -/
def linesAux : List Char → List Char → List (List Char)
  | [], acc => if acc.isEmpty then [] else [acc.reverse]
  | c :: cs, acc =>
    if c = '\n' then (stripCrRev acc).reverse :: linesAux cs []
    else linesAux cs (c :: acc)

/-- Rust `str::lines`: split at `'\n'`, strip a `'\r'` before each split
point, and do not produce a final empty line for a trailing newline. -/
def rustLines (s : List Char) : List (List Char) :=
  linesAux s []

/-- Protocol position, as in `tower_lsp::lsp_types::Position`
(zero-based line / character). -/
structure Position where
  line : Nat
  character : Nat
deriving DecidableEq, Repr

/-- Protocol range, as in `tower_lsp::lsp_types::Range`
(`end` is a Lean keyword, hence `endPos`). -/
structure Range where
  start : Position
  endPos : Position
deriving DecidableEq, Repr

/-- Start byte offset of an edit, from `apply_incremental_change`
(`server.rs` lines 89-102): byte lengths of the full lines before the
start line (each plus one newline byte) plus the UTF-8 byte length of the
start line's first `startChar` characters. -/
def computeStartOffset (lines : List (List Char)) (startLine startChar : Nat) : Nat :=
  ((lines.take startLine).map (fun l => byteLen l + 1)).sum
    + byteLen ((lines.getD startLine []).take startChar)

/-- End byte offset of an edit, from `apply_incremental_change`
(`server.rs` lines 104-126): same-line edits add the byte length of the
characters between the two columns (end column clamped to the line
length); multi-line edits add the rest of the start line, one newline,
the full intermediate lines, and the end line's clamped prefix. -/
def computeEndOffset (lines : List (List Char)) (startLine startChar endLine endChar : Nat) : Nat :=
  let startLineChars := lines.getD startLine []
  if startLine = endLine then
    computeStartOffset lines startLine startChar
      + byteLen ((startLineChars.take (min endChar startLineChars.length)).drop startChar)
  else
    let endLineChars := lines.getD endLine []
    computeStartOffset lines startLine startChar
      + byteLen (startLineChars.drop startChar)
      + 1
      + (((lines.drop (startLine + 1)).take (endLine - (startLine + 1))).map
          (fun l => byteLen l + 1)).sum
      + byteLen (endLineChars.take (min endChar endLineChars.length))

/-- `Backend::apply_incremental_change` (`server.rs` lines 73-132).
The buffer is a Rust `String`, i.e. a UTF-8 byte buffer, so the result of
the byte splice `String::replace_range` is returned as the new byte
sequence; on a bounds error the function returns `Except.error` before
any mutation, exactly as the Rust code returns `Err` before
`replace_range`. Character columns index decoded characters
(`Vec<char>`), byte offsets index the UTF-8 encoding. -/
def apply_incremental_change (content : String) (range : Range) (newText : String) :
    Except String (List Nat) :=
  let lines := rustLines content.data
  let startLine := range.start.line
  let startChar := range.start.character
  let endLine := range.endPos.line
  let endChar := range.endPos.character
  if startLine ≥ lines.length || endLine ≥ lines.length then
    .error ("Range out of bounds: document has " ++ toString lines.length
      ++ " lines, but range refers to lines " ++ toString startLine
      ++ "-" ++ toString endLine)
  else
    let startLineChars := lines.getD startLine []
    if startChar > startLineChars.length then
      .error ("Start character " ++ toString startChar
        ++ " out of bounds for line " ++ toString startLine
        ++ " (length " ++ toString startLineChars.length ++ ")")
    else
      let startOffset := computeStartOffset lines startLine startChar
      let endOffset := computeEndOffset lines startLine startChar endLine endChar
      .ok ((utf8Str content.data).take startOffset
        ++ utf8Str newText.data
        ++ (utf8Str content.data).drop endOffset)

/-- Buffer content observed by `did_change` after one incremental edit:
the spliced buffer on success, the untouched buffer on failure (the Rust
`&mut String` is only written by `replace_range`, which is unreachable on
the error paths). -/
def applyOrKeep (content : String) (range : Range) (newText : String) : List Nat :=
  match apply_incremental_change content range newText with
  | .ok out => out
  | .error _ => utf8Str content.data

/-- Byte offset `off` sits on a UTF-8 character boundary of the buffer
holding `s` (including the end-of-buffer position). -/
def isBoundary (s : List Char) (off : Nat) : Bool :=
  (List.range (s.length + 1)).any (fun k => byteLen (s.take k) == off)

/-- Protocol→tree coordinate conversion, inlined in `goto_definition`
(`server.rs` lines 354-355) as `(position.line + 1) as usize`: the `+ 1`
is `u32` addition, wrapping modulo `2^32` (release-mode semantics),
before the lossless widening to `usize`. -/
def to_tree (p : Position) : Position :=
  ⟨(p.line + 1) % 2 ^ 32, (p.character + 1) % 2 ^ 32⟩

/-- Tree→protocol coordinate conversion, inlined in `create_diagnostics`
(`server.rs` lines 41-42) and the navigation handlers as
`(diag.line.saturating_sub(1)) as u32`: `Nat` subtraction is exactly the
`usize` saturating subtraction, and the `as u32` cast truncates modulo
`2^32`. -/
def to_protocol (p : Position) : Position :=
  ⟨(p.line - 1) % 2 ^ 32, (p.character - 1) % 2 ^ 32⟩

/-- `TypeScriptBridge::position_within_range` (`parser.rs` lines 837-853),
with the three early `return false` tests folded into nested `if`s. -/
def position_within_range (targetLine targetCol startLine startCol endLine endCol : Nat) : Bool :=
  if targetLine < startLine || targetLine > endLine then false
  else if targetLine = startLine && targetCol < startCol then false
  else if targetLine = endLine && targetCol > endCol then false
  else true

/-- `position_within_range` returns `true` exactly on the closed
line-interval with the start/end column tests of the source. -/
theorem position_within_range_iff (tl tc sl sc el ec : Nat) :
    position_within_range tl tc sl sc el ec = true ↔
      (sl ≤ tl ∧ tl ≤ el ∧ (tl = sl → sc ≤ tc) ∧ (tl = el → tc ≤ ec)) := by
  unfold position_within_range
  split_ifs with h1 h2 h3 <;>
    simp only [Bool.or_eq_true, decide_eq_true_eq, Bool.and_eq_true] at * <;>
    constructor <;> intro h <;> first
      | omega
      | simp_all

mutual
/-- A `serde_json::Value` as consumed by the tree walker. Only the shapes
the walker inspects are distinguished; numbers are the unsigned integers
`as_u64` succeeds on. -/
inductive Json where
  | str : String → Json
  | num : Nat → Json
  | obj : JsonFields → Json
  | arr : JsonItems → Json
/-- Field list of a JSON object, in stored order. -/
inductive JsonFields where
  | nil : JsonFields
  | cons : String → Json → JsonFields → JsonFields
/-- Element list of a JSON array, in index order. -/
inductive JsonItems where
  | nil : JsonItems
  | cons : Json → JsonItems → JsonItems
end

/-- `serde_json::Value::get` on an object's field list. -/
def JsonFields.lookup : JsonFields → String → Option Json
  | .nil, _ => none
  | .cons k v rest, key => if k = key then some v else rest.lookup key

/-- `serde_json::Value::get`: field lookup on objects, `None` otherwise. -/
def Json.get : Json → String → Option Json
  | .obj fs, key => fs.lookup key
  | _, _ => none

/-- `Value::as_str`. -/
def Json.asStr : Json → Option String
  | .str s => some s
  | _ => none

/-- `Value::as_u64`. -/
def Json.asNat : Json → Option Nat
  | .num n => some n
  | _ => none

/-- The nested `location`/`start`/`end`/`line`/`column` extraction that
every walker in `parser.rs` performs (e.g. lines 592-604): all four
coordinates must be present and numeric, otherwise the node is skipped. -/
def getLoc (node : Json) : Option (Nat × Nat × Nat × Nat) :=
  match node.get "location" with
  | none => none
  | some location =>
    match location.get "start", location.get "end" with
    | some s, some e =>
      match (s.get "line").bind Json.asNat, (s.get "column").bind Json.asNat,
            (e.get "line").bind Json.asNat, (e.get "column").bind Json.asNat with
      | some sl, some sc, some el, some ec => some (sl, sc, el, ec)
      | _, _, _, _ => none
    | _, _ => none

mutual
/-- `find_symbol_at_position_recursive` (`parser.rs` lines 590-646): if the
node has a well-formed location containing the target and its `kind` is
`"variable"` or `"definition"`, return its `name`; otherwise recurse into
object field values (stored order) then array items. -/
def findSymbolAtPos (node : Json) (targetLine targetCol : Nat) : Option String :=
  let selfResult : Option String :=
    match getLoc node with
    | some (sl, sc, el, ec) =>
      if position_within_range targetLine targetCol sl sc el ec then
        match (node.get "kind").bind Json.asStr with
        | some k =>
          if k = "variable" || k = "definition" then
            (node.get "name").bind Json.asStr
          else none
        | none => none
      else none
    | none => none
  match selfResult with
  | some r => some r
  | none =>
    match node with
    | .obj fs => findSymbolAtPosFields fs targetLine targetCol
    | .arr xs => findSymbolAtPosItems xs targetLine targetCol
    | _ => none

/-- Field-value traversal of `find_symbol_at_position_recursive`. -/
def findSymbolAtPosFields : JsonFields → Nat → Nat → Option String
  | .nil, _, _ => none
  | .cons _ v rest, tl, tc =>
    match findSymbolAtPos v tl tc with
    | some r => some r
    | none => findSymbolAtPosFields rest tl tc

/-- Array-item traversal of `find_symbol_at_position_recursive`. -/
def findSymbolAtPosItems : JsonItems → Nat → Nat → Option String
  | .nil, _, _ => none
  | .cons v rest, tl, tc =>
    match findSymbolAtPos v tl tc with
    | some r => some r
    | none => findSymbolAtPosItems rest tl tc
end

/-- `SymbolReference` (`parser.rs` lines 61-67). -/
structure SymbolReference where
  name : String
  line : Nat
  column : Nat
  end_line : Nat
  end_column : Nat
deriving DecidableEq, Repr

mutual
/-- `find_references_recursive` (`parser.rs` lines 727-769): collect every
`kind == "variable"` node with the matching name and a well-formed
location, in pre-order (self, then field values, then array items). -/
def findRefs (node : Json) (symbolName : String) : List SymbolReference :=
  let selfRefs : List SymbolReference :=
    match (node.get "kind").bind Json.asStr with
    | some k =>
      if k = "variable" then
        match (node.get "name").bind Json.asStr with
        | some n =>
          if n = symbolName then
            match getLoc node with
            | some (sl, sc, el, ec) => [⟨n, sl, sc, el, ec⟩]
            | none => []
          else []
        | none => []
      else []
    | none => []
  selfRefs ++
    (match node with
     | .obj fs => findRefsFields fs symbolName
     | .arr xs => findRefsItems xs symbolName
     | _ => [])

/-- Field-value traversal of `find_references_recursive`. -/
def findRefsFields : JsonFields → String → List SymbolReference
  | .nil, _ => []
  | .cons _ v rest, n => findRefs v n ++ findRefsFields rest n

/-- Array-item traversal of `find_references_recursive`. -/
def findRefsItems : JsonItems → String → List SymbolReference
  | .nil, _ => []
  | .cons v rest, n => findRefs v n ++ findRefsItems rest n
end

/-- `TypeScriptBridge::find_references` (`parser.rs` lines 567-576) after
the external `get_ast_file` call: resolve the symbol name at the position,
then collect its references; no name resolved yields the empty list. -/
def find_references (ast : Json) (line column : Nat) : List SymbolReference :=
  match findSymbolAtPos ast line column with
  | some name => findRefs ast name
  | none => []

/-- A tree `location` object in tree coordinates. -/
def mkLoc (sl sc el ec : Nat) : Json :=
  .obj (.cons "start"
          (.obj (.cons "line" (.num sl) (.cons "column" (.num sc) .nil)))
          (.cons "end"
            (.obj (.cons "line" (.num el) (.cons "column" (.num ec) .nil)))
            .nil))

/-- Scenario C definition node: `kind = "definition"`, `name = "add"`,
tree-range (1,1)-(1,4). -/
def defNodeAdd : Json :=
  .obj (.cons "kind" (.str "definition")
          (.cons "name" (.str "add")
            (.cons "location" (mkLoc 1 1 1 4) .nil)))

/-- Scenario C variable node: `kind = "variable"`, `name = "add"`, on the
given line (columns 10-13). -/
def varNodeAdd (line : Nat) : Json :=
  .obj (.cons "kind" (.str "variable")
          (.cons "name" (.str "add")
            (.cons "location" (mkLoc line 10 line 13) .nil)))

/-- Scenario C tree: one definition of `add` and two variable uses of
`add` on lines 2 and 3, as children of a `statements` array. -/
def treeC3 : Json :=
  .obj (.cons "statements"
          (.arr (.cons defNodeAdd (.cons (varNodeAdd 2) (.cons (varNodeAdd 3) .nil))))
          .nil)

/-- Is `needle` a prefix of `hay`? (Rust `str::starts_with`.) -/
def prefixB : List Char → List Char → Bool
  | [], _ => true
  | _ :: _, [] => false
  | a :: as, b :: bs => a == b && prefixB as bs

/-- Rust `str::find(pattern)`: index of the first occurrence of `needle`
in `hay` (character index; the patterns searched in `parser.rs` are
ASCII, where character and byte indices coincide). -/
def findSub : List Char → List Char → Option Nat
  | [], needle => if prefixB needle [] then some 0 else none
  | c :: rest, needle =>
    if prefixB needle (c :: rest) then some 0
    else (findSub rest needle).map (· + 1)

/-- Rust `str::contains`. -/
def containsSub (hay needle : List Char) : Bool :=
  (findSub hay needle).isSome

/-- Rust `str::parse::<usize>()`: optional `'+'` sign followed by one or
more ASCII digits. -/
def parseNat (l : List Char) : Option Nat :=
  let digits :=
    match l with
    | '+' :: rest => rest
    | _ => l
  if digits.isEmpty then none
  else if digits.all Char.isDigit then
    some (digits.foldl (fun a c => a * 10 + (c.toNat - 48)) 0)
  else none

/-- Rust `str::trim` (ASCII whitespace). -/
def rustTrim (l : List Char) : List Char :=
  ((l.dropWhile isWs).reverse.dropWhile isWs).reverse

/-- Worker for `splitWs`, accumulating the current (reversed) word. -/
def splitWsAux : List Char → List Char → List (List Char)
  | [], acc => if acc.isEmpty then [] else [acc.reverse]
  | c :: cs, acc =>
    if isWs c then
      if acc.isEmpty then splitWsAux cs [] else acc.reverse :: splitWsAux cs []
    else splitWsAux cs (c :: acc)

/-- Rust `str::split_whitespace`: maximal non-whitespace runs. -/
def splitWs (l : List Char) : List (List Char) :=
  splitWsAux l []

/-- `extract_line_column_pattern1` (`parser.rs` lines 411-428): locate
`"line "`, parse the digits before the following comma, then locate
`"column "` and parse the digit run after it. -/
def extract_line_column_pattern1 (l : List Char) : Option (Nat × Nat) :=
  match findSub l "line ".data with
  | none => none
  | some lineStart =>
    match findSub (l.drop (lineStart + 5)) [','] with
    | none => none
    | some lineEnd =>
      match parseNat ((l.drop (lineStart + 5)).take lineEnd) with
      | none => none
      | some lineNum =>
        match findSub l "column ".data with
        | none => none
        | some colStart =>
          match parseNat ((l.drop (colStart + 7)).takeWhile Char.isDigit) with
          | none => none
          | some colNum => some (lineNum, colNum)

/-- `extract_line_column_pattern2` (`parser.rs` lines 431-454): first
whitespace-separated token containing a colon whose two digit runs
(line digits after a non-digit prefix, column digits) both parse. -/
def extract_line_column_pattern2 (l : List Char) : Option (Nat × Nat) :=
  (splitWs l).findSome? fun part =>
    match findSub part [':'] with
    | none => none
    | some colonPos =>
      let linePart := part.take colonPos
      let colPart := part.drop (colonPos + 1)
      let lineDigits := (linePart.dropWhile (fun c => !c.isDigit)).takeWhile Char.isDigit
      let colDigits := colPart.takeWhile Char.isDigit
      match parseNat lineDigits, parseNat colDigits with
      | some lineNum, some colNum => some (lineNum, colNum)
      | _, _ => none

/-- `extract_parse_error_line` (`parser.rs` lines 457-482): on
`"Parse error"` lines, digits after `"at line "`, else after `"line "`. -/
def extract_parse_error_line (l : List Char) : Option Nat :=
  if containsSub l "Parse error".data then
    let viaAtLine :=
      match findSub l "at line ".data with
      | some atPos => parseNat ((l.drop (atPos + 8)).takeWhile Char.isDigit)
      | none => none
    match viaAtLine with
    | some n => some n
    | none =>
      match findSub l "line ".data with
      | some linePos => parseNat ((l.drop (linePos + 5)).takeWhile Char.isDigit)
      | none => none
  else none

/-- Length of a match of the regex `\s+at line \d+(?:, column \d+)?` at
the head of `l` (`clean_error_message`, `parser.rs` line 498): greedy
whitespace, the literal `"at line "`, a greedy digit run, and optionally
`", column "` with a further digit run. -/
def matchLoc (l : List Char) : Option Nat :=
  let wsLen := (l.takeWhile isWs).length
  if wsLen = 0 then none
  else
    let rest := l.drop wsLen
    if prefixB "at line ".data rest then
      let rest2 := rest.drop 8
      let dLen := (rest2.takeWhile Char.isDigit).length
      if dLen = 0 then none
      else
        let rest3 := rest2.drop dLen
        let base := wsLen + 8 + dLen
        if prefixB ", column ".data rest3 then
          let rest4 := rest3.drop 9
          let dLen2 := (rest4.takeWhile Char.isDigit).length
          if dLen2 = 0 then some base else some (base + 9 + dLen2)
        else some base
    else none

/-- Fueled scanner for `Regex::replace_all` with the location pattern:
delete each leftmost non-overlapping match. The fuel is the input length;
every step consumes at least one character. -/
def stripLocFuel : Nat → List Char → List Char
  | 0, l => l
  | _ + 1, [] => []
  | fuel + 1, c :: rest =>
    match matchLoc (c :: rest) with
    | some n => stripLocFuel fuel ((c :: rest).drop n)
    | none => c :: stripLocFuel fuel rest

/-- `replace_all` of `\s+at line \d+(?:, column \d+)?` with `""`. -/
def stripLoc (l : List Char) : List Char :=
  stripLocFuel l.length l

/-- `clean_error_message` (`parser.rs` lines 485-504): cut the line from
the first of `"Error:"` / `"TypeError:"` / `"Parse error:"` (tried in
that order), delete trailing location fragments, and trim. -/
def clean_error_message (l : List Char) : List Char :=
  let message :=
    match findSub l "Error:".data with
    | some i => l.drop i
    | none =>
      match findSub l "TypeError:".data with
      | some i => l.drop i
      | none =>
        match findSub l "Parse error:".data with
        | some i => l.drop i
        | none => l
  rustTrim (stripLoc message)

/-- `DiagnosticSeverity` (`parser.rs` lines 23-28). -/
inductive DiagnosticSeverity where
  | Error
  | Warning
  | Information
  | Hint
deriving DecidableEq, Repr

/-- `DiagnosticInfo` (`parser.rs` lines 14-19); the message is kept as a
character list. -/
structure DiagnosticInfo where
  line : Nat
  column : Nat
  message : List Char
  severity : DiagnosticSeverity
deriving DecidableEq, Repr

/-- One iteration of the `parse_error_output` line loop (`parser.rs`
lines 354-395): a line containing `"Error"`, `"TypeError"` or
`"Parse error"` yields a diagnostic whose position comes from the first
matching pattern (defaults `(1,1)`), whose message is the cleaned line,
and whose severity is downgraded when the line contains
`"warning"`/`"Warning"` (resp. `"info"`/`"Info"`). -/
def lineDiag (l : List Char) : Option DiagnosticInfo :=
  if containsSub l "Error".data || containsSub l "TypeError".data
      || containsSub l "Parse error".data then
    let lc : Nat × Nat :=
      match extract_line_column_pattern1 l with
      | some x => x
      | none =>
        match extract_line_column_pattern2 l with
        | some x => x
        | none =>
          match extract_parse_error_line l with
          | some lineNum => (lineNum, 1)
          | none => (1, 1)
    let severity : DiagnosticSeverity :=
      if containsSub l "warning".data || containsSub l "Warning".data then .Warning
      else if containsSub l "info".data || containsSub l "Info".data then .Information
      else .Error
    some ⟨lc.1, lc.2, clean_error_message l, severity⟩
  else none

/-- The per-line scan of `parse_error_output`, before the fallback. -/
def scanLines (s : List Char) : List DiagnosticInfo :=
  (rustLines s).filterMap lineDiag

/-- `parse_error_output` (`parser.rs` lines 351-408): the per-line scan,
and if it found nothing on a non-blank input, a single generic error
diagnostic at (1,1) wrapping the trimmed output. -/
def parse_error_output (s : List Char) : List DiagnosticInfo :=
  if (scanLines s).isEmpty && !(rustTrim s).isEmpty then
    [⟨1, 1, "Error: ".data ++ rustTrim s, .Error⟩]
  else scanLines s

/-- Modelled from the spec: case-insensitive substring test, as in the
claim "contains the token in any letter casing". Used only to state how
the source's exact-casing checks differ from the specified behaviour. -/
def specContainsIgnoreCase (hay needle : List Char) : Bool :=
  let lower := fun c : Char =>
    if 'A' ≤ c && c ≤ 'Z' then Char.ofNat (c.toNat + 32) else c
  containsSub (hay.map lower) (needle.map lower)

/-! ## List and byte-length helper lemmas -/

theorem utf8Str_append (a b : List Char) : utf8Str (a ++ b) = utf8Str a ++ utf8Str b := by
  simp [utf8Str]

theorem byteLen_append (a b : List Char) : byteLen (a ++ b) = byteLen a + byteLen b := by
  simp [byteLen, utf8Str_append]

theorem byteLen_take_drop (l : List Char) (k : Nat) :
    byteLen (l.take k) + byteLen (l.drop k) = byteLen l := by
  conv_rhs => rw [← List.take_append_drop k l]
  rw [byteLen_append]

theorem byteLen_take_le (l : List Char) (k : Nat) : byteLen (l.take k) ≤ byteLen l := by
  rw [← byteLen_take_drop l k]; omega

theorem takeAppendExact (a b : List α) (k : Nat) :
    (a ++ b).take (a.length + k) = a ++ b.take k := by
  induction a with
  | nil => simp
  | cons x xs ih => simp [List.take, ih, Nat.succ_add]

theorem takeLeftOfLe {a : List α} (b : List α) {k : Nat} (h : k ≤ a.length) :
    (a ++ b).take k = a.take k := by
  induction a generalizing k with
  | nil =>
    have : k = 0 := by simpa using h
    simp [this]
  | cons x xs ih =>
    cases k with
    | zero => simp
    | succ k' =>
      simp only [List.cons_append, List.take]
      rw [show xs.append b = xs ++ b from rfl, ih (by simpa using h)]

theorem takeTakeOfLe (l : List α) {a b : Nat} (h : a ≤ b) :
    (l.take b).take a = l.take a := by
  induction l generalizing a b with
  | nil => simp
  | cons x xs ih =>
    cases b with
    | zero => interval_cases a; simp
    | succ b' =>
      cases a with
      | zero => simp
      | succ a' => simp only [List.take]; rw [ih (by omega)]

theorem takeAddSplit (l : List α) (m n : Nat) :
    l.take (m + n) = l.take m ++ (l.drop m).take n := by
  induction m generalizing l with
  | zero => simp
  | succ m' ih =>
    cases l with
    | nil => simp
    | cons x xs => simp only [Nat.succ_add, List.take, List.drop, List.cons_append]; rw [ih]

theorem byteLen_take_mono (l : List Char) {a b : Nat} (h : a ≤ b) :
    byteLen (l.take a) ≤ byteLen (l.take b) := by
  rw [← takeTakeOfLe l h]
  exact byteLen_take_le _ _

/-! ## Claim C1 -/

/-- Claim C1: applying a single in-bounds range edit splices `newText`
into the byte span of the range computed over the current buffer:
buffer `"hello world\nfoo bar\nbaz"` with range (0,6)-(0,11) and text
`"rust"` yields `"hello rust\nfoo bar\nbaz"`, and buffer
`"line 1\nline 2\nline 3\nline 4"` with range (1,0)-(2,6) and text
`"replaced"` yields `"line 1\nreplaced\nline 4"` (results compared as
UTF-8 byte buffers, which is what the Rust `String` holds). -/
theorem claim_C1 :
    apply_incremental_change "hello world\nfoo bar\nbaz" ⟨⟨0, 6⟩, ⟨0, 11⟩⟩ "rust"
        = .ok (utf8Str "hello rust\nfoo bar\nbaz".data)
    ∧ apply_incremental_change "line 1\nline 2\nline 3\nline 4" ⟨⟨1, 0⟩, ⟨2, 6⟩⟩ "replaced"
        = .ok (utf8Str "line 1\nreplaced\nline 4".data) :=
  ⟨rfl, rfl⟩

/-! ## Claim C5 -/

/-- Claim C5: for every target position and every range with
`start <= end` (lexicographically), `position_within_range` accepts both
endpoints and rejects every position strictly before the start or
strictly after the end. -/
theorem claim_C5 (tl tc sl sc el ec : Nat)
    (hlex : sl < el ∨ (sl = el ∧ sc ≤ ec)) :
    position_within_range sl sc sl sc el ec = true
    ∧ position_within_range el ec sl sc el ec = true
    ∧ ((tl < sl ∨ (tl = sl ∧ tc < sc)) → position_within_range tl tc sl sc el ec = false)
    ∧ ((el < tl ∨ (el = tl ∧ ec < tc)) → position_within_range tl tc sl sc el ec = false) := by
  refine ⟨?_, ?_, ?_, ?_⟩
  · rw [position_within_range_iff]; omega
  · rw [position_within_range_iff]; omega
  · intro hb
    cases hpw : position_within_range tl tc sl sc el ec with
    | false => rfl
    | true => rw [position_within_range_iff] at hpw; omega
  · intro ha
    cases hpw : position_within_range tl tc sl sc el ec with
    | false => rfl
    | true => rw [position_within_range_iff] at hpw; omega

/-- Witness for C5 at the range (2,3)-(4,1) and the outside point (1,9). -/
theorem claim_C5_witness :
    position_within_range 2 3 2 3 4 1 = true
    ∧ position_within_range 4 1 2 3 4 1 = true
    ∧ ((1 < 2 ∨ (1 = 2 ∧ 9 < 3)) → position_within_range 1 9 2 3 4 1 = false)
    ∧ ((4 < 1 ∨ (4 = 1 ∧ 1 < 9)) → position_within_range 1 9 2 3 4 1 = false) :=
  claim_C5 1 9 2 3 4 1 (Or.inl (by decide))

/-! ## Claim C6 -/

/-- Counterexample to C6: the round trip fails at the valid (non-negative)
protocol position `line = u32::MAX`: the `u32` addition in `to_tree`
wraps to 0 (in debug builds the Rust `+ 1` panics instead), and
`to_protocol` then saturates at 0, so the position does not come back. -/
theorem claim_C6_counterexample :
    to_protocol (to_tree ⟨2 ^ 32 - 1, 0⟩) ≠ (⟨2 ^ 32 - 1, 0⟩ : Position) := by decide

/-- Claim C6 (amended): the coordinate conversions are mutually inverse
on the wrap-free ranges — `to_protocol (to_tree p) = p` for every
protocol position whose components are below `u32::MAX` (so the `u32`
`+ 1` does not wrap), and `to_tree (to_protocol q) = q` for every tree
position whose components are at least 1 and below `2^32` (so the
`as u32` cast does not truncate) — and `to_protocol` saturates at zero
on a zero component instead of underflowing. -/
theorem claim_C6_amended :
    (∀ p : Position, p.line + 1 < 2 ^ 32 → p.character + 1 < 2 ^ 32 →
      to_protocol (to_tree p) = p)
    ∧ (∀ q : Position, 1 ≤ q.line → q.line < 2 ^ 32 →
        1 ≤ q.character → q.character < 2 ^ 32 →
      to_tree (to_protocol q) = q)
    ∧ to_protocol ⟨0, 0⟩ = ⟨0, 0⟩ := by
  refine ⟨fun p h1 h2 => ?_, fun q h1 h2 h3 h4 => ?_, rfl⟩
  · cases p
    simp only [to_tree, to_protocol, Position.mk.injEq] at *
    omega
  · cases q
    simp only [to_tree, to_protocol, Position.mk.injEq] at *
    omega

/-- Witness for C6 (amended): the round trip at the tree position (5,2). -/
theorem claim_C6_witness :
    to_tree (to_protocol ⟨5, 2⟩) = (⟨5, 2⟩ : Position) :=
  claim_C6_amended.2.1 ⟨5, 2⟩ (by decide) (by decide) (by decide) (by decide)

/-! ## Claims C2 and C10: rejected edits -/

/-- Any edit whose range fails one of the two bounds checks of
`apply_incremental_change` is rejected with an error before the splice. -/
theorem apply_error_of_oob (content : String) (r : Range) (newText : String)
    (h : r.start.line ≥ (rustLines content.data).length
       ∨ r.endPos.line ≥ (rustLines content.data).length
       ∨ r.start.character > ((rustLines content.data).getD r.start.line []).length) :
    ∃ e, apply_incremental_change content r newText = .error e := by
  unfold apply_incremental_change
  dsimp only
  split_ifs with h1 h2
  · exact ⟨_, rfl⟩
  · exact ⟨_, rfl⟩
  · exfalso
    simp only [Bool.or_eq_true, decide_eq_true_eq, not_or, ge_iff_le, not_le] at h1 h2
    omega

/-- Claim C2: every edit whose start or end line is at or beyond the
buffer's line count, or whose start column exceeds the start line's
character count, makes `apply_incremental_change` return an error, and
the buffer observed afterwards is exactly the original content (no
partial splice); the failure is the function's return value. -/
theorem claim_C2 (content : String) (r : Range) (newText : String)
    (h : r.start.line ≥ (rustLines content.data).length
       ∨ r.endPos.line ≥ (rustLines content.data).length
       ∨ (r.start.line < (rustLines content.data).length
           ∧ r.start.character > ((rustLines content.data).getD r.start.line []).length)) :
    (∃ e, apply_incremental_change content r newText = .error e)
    ∧ applyOrKeep content r newText = utf8Str content.data := by
  obtain ⟨e, he⟩ :=
    apply_error_of_oob content r newText (h.imp id (fun h' => h'.imp id And.right))
  refine ⟨⟨e, he⟩, ?_⟩
  unfold applyOrKeep
  rw [he]

/-- Witness for C2: the one-line buffer `"hello"` rejects an edit whose
range addresses line 1, leaving the buffer bytes unchanged. -/
theorem claim_C2_witness :
    (∃ e, apply_incremental_change "hello" ⟨⟨1, 0⟩, ⟨1, 1⟩⟩ "test" = .error e)
    ∧ applyOrKeep "hello" ⟨⟨1, 0⟩, ⟨1, 1⟩⟩ "test" = utf8Str "hello".data :=
  claim_C2 "hello" ⟨⟨1, 0⟩, ⟨1, 1⟩⟩ "test" (Or.inl (by decide))

/-- For a buffer ending in a newline, `Rust lines()` produces exactly one
line per newline character (no final empty line). -/
theorem linesAux_length_of_trailing_nl :
    ∀ (s : List Char) (acc : List Char), s.getLast? = some '\n' →
      (linesAux s acc).length = s.count '\n'
  | [], _, h => by simp at h
  | c :: cs, acc, h => by
    by_cases hc : c = '\n'
    · subst hc
      have hstep : linesAux ('\n' :: cs) acc
          = (stripCrRev acc).reverse :: linesAux cs [] := by
        simp [linesAux]
      rw [hstep, List.length_cons, List.count_cons]
      cases cs with
      | nil => simp [linesAux]
      | cons d ds =>
        have hlast : (d :: ds).getLast? = some '\n' := by
          rwa [List.getLast?_cons_cons] at h
        rw [linesAux_length_of_trailing_nl (d :: ds) [] hlast]
        simp
    · have hstep : linesAux (c :: cs) acc = linesAux cs (c :: acc) := by
        simp [linesAux, hc]
      rw [hstep]
      cases cs with
      | nil => simp [List.getLast?_singleton, hc] at h
      | cons d ds =>
        have hlast : (d :: ds).getLast? = some '\n' := by
          rwa [List.getLast?_cons_cons] at h
        rw [linesAux_length_of_trailing_nl (d :: ds) (c :: acc) hlast]
        simp [List.count_cons, hc]

/-- Claim C10: bounds validation counts the lines produced by `lines()`,
which drops the empty final line of a newline-terminated buffer; hence an
edit addressing the line index equal to the number of newline characters
(a real position: the empty last line of the stored text) is rejected. -/
theorem claim_C10 (content : String) (r : Range) (newText : String)
    (hnl : content.data.getLast? = some '\n')
    (hline : r.start.line = content.data.count '\n') :
    (rustLines content.data).length = content.data.count '\n'
    ∧ ∃ e, apply_incremental_change content r newText = .error e := by
  have hlen : (rustLines content.data).length = content.data.count '\n' :=
    linesAux_length_of_trailing_nl content.data [] hnl
  exact ⟨hlen, apply_error_of_oob content r newText (Or.inl (by omega))⟩

/-- Witness for C10: `"hello\n"` stores one newline-terminated line; the
edit at position (1,0) — the empty final line — is rejected. -/
theorem claim_C10_witness :
    (rustLines "hello\n".data).length = "hello\n".data.count '\n'
    ∧ ∃ e, apply_incremental_change "hello\n" ⟨⟨1, 0⟩, ⟨1, 0⟩⟩ "x" = .error e :=
  claim_C10 "hello\n" ⟨⟨1, 0⟩, ⟨1, 0⟩⟩ "x" (by decide) (by decide)

/-! ## Claim C3 -/

/-- Claim C3: on the Scenario C tree (one `definition` node named `add`
with tree-range (1,1)-(1,4), two `variable` nodes named `add` on lines 2
and 3), `find_references` at any position within the definition's range
returns exactly two references, on line 2 then line 3, in traversal
order. -/
theorem claim_C3 (tl tc : Nat) (h : position_within_range tl tc 1 1 1 4 = true) :
    find_references treeC3 tl tc = [⟨"add", 2, 10, 2, 13⟩, ⟨"add", 3, 10, 3, 13⟩] := by
  rw [position_within_range_iff] at h
  obtain ⟨h1, h2, h3, h4⟩ := h
  have htl : tl = 1 := by omega
  subst htl
  have hc1 : 1 ≤ tc := h3 rfl
  have hc4 : tc ≤ 4 := h4 rfl
  interval_cases tc <;> decide

/-- Witness for C3 at position (1,2), inside the definition's range. -/
theorem claim_C3_witness :
    find_references treeC3 1 2 = [⟨"add", 2, 10, 2, 13⟩, ⟨"add", 3, 10, 3, 13⟩] :=
  claim_C3 1 2 (by decide)

/-! ## Claim C4 -/

theorem prefixB_refl : ∀ l : List Char, prefixB l l = true
  | [] => rfl
  | c :: rest => by simp [prefixB, prefixB_refl rest]

theorem containsSub_append_self (a b : List Char) : containsSub (a ++ b) b = true := by
  induction a with
  | nil =>
    cases b with
    | nil => rfl
    | cons c rest => simp [containsSub, findSub, prefixB_refl]
  | cons x xs ih =>
    simp only [List.cons_append, containsSub, findSub, List.append_eq]
    by_cases hp : prefixB b (x :: (xs ++ b)) = true
    · simp [hp]
    · rw [if_neg hp]
      cases h' : findSub (xs ++ b) b with
      | none => rw [containsSub, h'] at ih; simp at ih
      | some n => simp

/-- Claim C4: whenever the per-line scan finds no diagnostics but the
output is non-blank after trimming, `parse_error_output` emits exactly
one diagnostic at (1,1) with severity Error whose message contains the
full trimmed input; it never returns an empty list for a non-blank
input. -/
theorem claim_C4 (s : List Char) (hne : rustTrim s ≠ []) :
    (scanLines s = [] →
      parse_error_output s = [⟨1, 1, "Error: ".data ++ rustTrim s, .Error⟩]
      ∧ containsSub ("Error: ".data ++ rustTrim s) (rustTrim s) = true)
    ∧ parse_error_output s ≠ [] := by
  have hfall : scanLines s = [] →
      parse_error_output s = [⟨1, 1, "Error: ".data ++ rustTrim s, .Error⟩] := by
    intro hscan
    unfold parse_error_output
    rw [if_pos]
    simp [hscan, List.isEmpty_iff, hne]
  refine ⟨fun hscan => ⟨hfall hscan, containsSub_append_self _ _⟩, ?_⟩
  cases hscan : scanLines s with
  | nil => rw [hfall hscan]; simp
  | cons d ds =>
    unfold parse_error_output
    rw [if_neg]
    · rw [hscan]; simp
    · rw [hscan]; simp

/-- Witness for C4: the trigger-free non-blank output `"  oops  "`. -/
theorem claim_C4_witness :
    (scanLines "  oops  ".data = [] →
      parse_error_output "  oops  ".data
          = [⟨1, 1, "Error: ".data ++ rustTrim "  oops  ".data, .Error⟩]
      ∧ containsSub ("Error: ".data ++ rustTrim "  oops  ".data)
          (rustTrim "  oops  ".data) = true)
    ∧ parse_error_output "  oops  ".data ≠ [] :=
  claim_C4 "  oops  ".data (by decide)

/-! ## Claim C7 -/

/-- Counterexample to C7: on `"TypeError: mismatch at line 3, column 7"`
the extractor does NOT produce the message `"TypeError: mismatch"`
claimed by the spec — `clean_error_message` looks for `"Error:"` first,
which occurs inside `"TypeError:"` at index 4, so the `"Type"` prefix is
cut off. Line, column and severity are as claimed. -/
theorem claim_C7_counterexample :
    parse_error_output "TypeError: mismatch at line 3, column 7".data
      ≠ [⟨3, 7, "TypeError: mismatch".data, .Error⟩] := by decide

/-- Claim C7 (amended): for the single input line
`"TypeError: mismatch at line 3, column 7"` the extractor produces
exactly one diagnostic with line 3, column 7, severity Error, and
message `"Error: mismatch"` (the keyword slice starts at the first
occurrence of `"Error:"`, which sits inside `"TypeError:"`, and the
trailing `" at line 3, column 7"` fragment is stripped). -/
theorem claim_C7_amended :
    parse_error_output "TypeError: mismatch at line 3, column 7".data
      = [⟨3, 7, "Error: mismatch".data, .Error⟩] := by decide

/-! ## Claim C8 -/

/-- Counterexample to C8: the line `"Error: WARNING"` contains
`"warning"` case-insensitively, yet the produced severity is Error, not
Warning — the source only checks the two exact casings `"warning"` and
`"Warning"`. -/
theorem claim_C8_counterexample :
    specContainsIgnoreCase "Error: WARNING".data "warning".data = true
    ∧ lineDiag "Error: WARNING".data
        = some ⟨1, 1, "Error: WARNING".data, .Error⟩
    ∧ DiagnosticSeverity.Error ≠ DiagnosticSeverity.Warning := by decide

/-- Claim C8 (amended): for every triggered diagnostic line the severity
is Error by default, downgraded to Warning if the line contains
`"warning"` or `"Warning"` (those two exact casings), else to
Information if it contains `"info"` or `"Info"`. -/
theorem claim_C8_amended (l : List Char)
    (h : (containsSub l "Error".data || containsSub l "TypeError".data
          || containsSub l "Parse error".data) = true) :
    ∃ d, lineDiag l = some d ∧
      d.severity =
        (if containsSub l "warning".data || containsSub l "Warning".data then .Warning
         else if containsSub l "info".data || containsSub l "Info".data then .Information
         else .Error) := by
  unfold lineDiag
  rw [if_pos h]
  exact ⟨_, rfl, rfl⟩

/-- Witness for C8 (amended) on the line `"Error: warning"`. -/
theorem claim_C8_witness :
    ∃ d, lineDiag "Error: warning".data = some d ∧
      d.severity =
        (if containsSub "Error: warning".data "warning".data
            || containsSub "Error: warning".data "Warning".data then .Warning
         else if containsSub "Error: warning".data "info".data
            || containsSub "Error: warning".data "Info".data then .Information
         else .Error) :=
  claim_C8_amended "Error: warning".data (by decide)

/-! ## Claim C9: offset correctness of in-bounds edits -/

/-- Concatenation of lines, each terminated by one newline character. -/
def joinNl (ls : List (List Char)) : List Char :=
  ls.flatMap (fun l => l ++ ['\n'])

theorem joinNl_append (a b : List (List Char)) :
    joinNl (a ++ b) = joinNl a ++ joinNl b := by
  simp [joinNl]

theorem byteLen_joinNl (ls : List (List Char)) :
    byteLen (joinNl ls) = (ls.map (fun l => byteLen l + 1)).sum := by
  induction ls with
  | nil => rfl
  | cons l rest ih =>
    have hnl : byteLen ['\n'] = 1 := rfl
    simp only [joinNl, List.flatMap_cons] at *
    rw [byteLen_append, byteLen_append, hnl, ih, List.map_cons, List.sum_cons]

/-- Every character list is empty, starts with a newline-free segment
followed by a newline, or is newline-free and non-empty. -/
theorem firstLineSplit : ∀ s : List Char,
    s = [] ∨ (∃ l t, '\n' ∉ l ∧ s = l ++ '\n' :: t)
      ∨ (∃ l, '\n' ∉ l ∧ l ≠ [] ∧ s = l)
  | [] => Or.inl rfl
  | c :: cs => by
    by_cases hc : c = '\n'
    · subst hc
      exact Or.inr (Or.inl ⟨[], cs, by simp, rfl⟩)
    · have hmem : ∀ l : List Char, '\n' ∉ l → '\n' ∉ c :: l := by
        intro l hl hmem
        rcases List.mem_cons.mp hmem with h | h
        · exact hc h.symm
        · exact hl h
      rcases firstLineSplit cs with h | ⟨l, t, hnl, ht⟩ | ⟨l, hnl, hlne, hl⟩
      · subst h
        exact Or.inr (Or.inr ⟨[c], hmem [] (by simp), by simp, rfl⟩)
      · exact Or.inr (Or.inl ⟨c :: l, t, hmem l hnl, by simp [ht]⟩)
      · exact Or.inr (Or.inr ⟨c :: l, hmem l hnl, by simp, by simp [hl]⟩)

theorem stripCrRev_no_cr (a : List Char) (h : '\r' ∉ a) : stripCrRev a = a := by
  cases a with
  | nil => rfl
  | cons c rest =>
    have hc : ¬(c = '\r') := fun hh => h (hh ▸ List.mem_cons_self c rest)
    simp [stripCrRev, hc]

theorem linesAux_append_nl :
    ∀ (l : List Char) (t acc : List Char), '\n' ∉ l →
      linesAux (l ++ '\n' :: t) acc
        = (stripCrRev (l.reverse ++ acc)).reverse :: linesAux t []
  | [], t, acc, _ => by simp [linesAux]
  | c :: l', t, acc, h => by
    simp only [List.mem_cons, not_or] at h
    have hc : ¬(c = '\n') := fun hh => h.1 hh.symm
    have hstep : linesAux (c :: (l' ++ '\n' :: t)) acc
        = linesAux (l' ++ '\n' :: t) (c :: acc) := by
      simp [linesAux, hc]
    rw [List.cons_append, hstep, linesAux_append_nl l' t (c :: acc) h.2]
    simp [List.append_assoc]

theorem linesAux_no_nl :
    ∀ (l acc : List Char), '\n' ∉ l →
      linesAux l acc = if acc.reverse ++ l = [] then [] else [acc.reverse ++ l]
  | [], acc, _ => by
    cases acc with
    | nil => simp [linesAux]
    | cons a as => simp [linesAux]
  | c :: l', acc, h => by
    simp only [List.mem_cons, not_or] at h
    have hc : ¬(c = '\n') := fun hh => h.1 hh.symm
    have hstep : linesAux (c :: l') acc = linesAux l' (c :: acc) := by
      simp [linesAux, hc]
    rw [hstep, linesAux_no_nl l' (c :: acc) h.2]
    simp [List.append_assoc]

theorem rustLines_cons (l t : List Char) (hnl : '\n' ∉ l) (hcr : '\r' ∉ l) :
    rustLines (l ++ '\n' :: t) = l :: rustLines t := by
  unfold rustLines
  rw [linesAux_append_nl l t [] hnl]
  congr 1
  rw [List.append_nil, stripCrRev_no_cr _ (by simpa using hcr), List.reverse_reverse]

theorem rustLines_single (l : List Char) (hnl : '\n' ∉ l) (hne : l ≠ []) :
    rustLines l = [l] := by
  unfold rustLines
  rw [linesAux_no_nl l [] hnl]
  simp [hne]

/-- Decomposition of a carriage-return-free buffer at line `i`: the text
is the first `i` newline-terminated lines, then line `i` itself, then a
remainder. -/
theorem rustLines_decomp :
    ∀ (i : Nat) (s : List Char), '\r' ∉ s → i < (rustLines s).length →
      ∃ rest, s = joinNl ((rustLines s).take i) ++ ((rustLines s).getD i []) ++ rest := by
  intro i
  induction i with
  | zero =>
    intro s hcr hlen
    rcases firstLineSplit s with h | ⟨l, t, hnl, hs⟩ | ⟨l, hnl, hne, hs⟩
    · subst h
      simp [rustLines, linesAux] at hlen
    · have hcrl : '\r' ∉ l := fun hm => hcr (hs ▸ List.mem_append_left _ hm)
      rw [hs, rustLines_cons l t hnl hcrl]
      exact ⟨'\n' :: t, by simp [joinNl]⟩
    · rw [hs, rustLines_single l hnl hne]
      exact ⟨[], by simp [joinNl]⟩
  | succ i ih =>
    intro s hcr hlen
    rcases firstLineSplit s with h | ⟨l, t, hnl, hs⟩ | ⟨l, hnl, hne, hs⟩
    · subst h
      simp [rustLines, linesAux] at hlen
    · have hcrl : '\r' ∉ l := fun hm => hcr (hs ▸ List.mem_append_left _ hm)
      have hcrt : '\r' ∉ t := fun hm =>
        hcr (hs ▸ List.mem_append_right _ (List.mem_cons_of_mem _ hm))
      rw [hs, rustLines_cons l t hnl hcrl] at hlen ⊢
      obtain ⟨rest, hrest⟩ := ih t hcrt (by simpa using hlen)
      refine ⟨rest, ?_⟩
      simp only [List.take_succ_cons, List.getD_cons_succ, joinNl, List.flatMap_cons]
      conv_lhs => rw [hrest]
      simp [joinNl, List.append_assoc]
    · rw [hs, rustLines_single l hnl hne] at hlen
      simp at hlen

/-- The start-offset formula of `apply_incremental_change` computes the
byte length of a character-level prefix of the buffer (and that prefix
fits in the buffer) whenever the line index is in bounds and the column
is at most the line's character count. Needs a carriage-return-free
buffer: `lines()` silently drops `'\r'` bytes, which would desynchronise
the offset arithmetic from the real byte positions. -/
theorem offset_take (s : List Char) (hcr : '\r' ∉ s) (i k : Nat)
    (hi : i < (rustLines s).length) (hk : k ≤ ((rustLines s).getD i []).length) :
    computeStartOffset (rustLines s) i k
        = byteLen (s.take ((joinNl ((rustLines s).take i)).length + k))
    ∧ (joinNl ((rustLines s).take i)).length + k ≤ s.length := by
  obtain ⟨rest, hdecomp⟩ := rustLines_decomp i s hcr hi
  set A := joinNl ((rustLines s).take i) with hA
  set B := (rustLines s).getD i [] with hB
  have hlen : s.length = A.length + (B.length + rest.length) := by
    rw [hdecomp]
    simp [List.length_append]
  have htake : s.take (A.length + k) = A ++ B.take k := by
    conv_lhs => rw [hdecomp, List.append_assoc]
    rw [takeAppendExact, takeLeftOfLe _ hk]
  constructor
  · unfold computeStartOffset
    rw [htake, byteLen_append, ← byteLen_joinNl, ← hA, ← hB]
  · omega

/-- The byte length of any character-level prefix is a UTF-8 character
boundary of the buffer. -/
theorem isBoundary_take (s : List Char) (m : Nat) :
    isBoundary s (byteLen (s.take m)) = true := by
  unfold isBoundary
  rw [List.any_eq_true]
  refine ⟨min m s.length, ?_, ?_⟩
  · rw [List.mem_range]
    omega
  · have htake : s.take (min m s.length) = s.take m := by
      by_cases hm : m ≤ s.length
      · rw [min_eq_left hm]
      · rw [min_eq_right (by omega), List.take_length, List.take_of_length_le (by omega)]
    rw [htake]
    simp

/-- The end-offset formula of `apply_incremental_change` equals the
start-offset formula evaluated at the end line with the clamped end
column, for any range with `start <= end` whose lines are in bounds. -/
theorem computeEndOffset_canon (lines : List (List Char)) (sl sc el ec : Nat)
    (hsl : sl < lines.length) (hel : el < lines.length)
    (hlex : sl < el ∨ (sl = el ∧ sc ≤ ec))
    (hsc : sc ≤ (lines.getD sl []).length) :
    computeEndOffset lines sl sc el ec
      = computeStartOffset lines el (min ec (lines.getD el []).length) := by
  unfold computeEndOffset
  dsimp only
  by_cases heq : sl = el
  · subst heq
    rw [if_pos rfl]
    unfold computeStartOffset
    have hb : sc ≤ min ec (lines.getD sl []).length := by
      rcases hlex with h | ⟨_, h⟩
      · omega
      · exact le_min h hsc
    have h1 : ((lines.getD sl []).take (min ec (lines.getD sl []).length)).take sc
        = (lines.getD sl []).take sc := takeTakeOfLe _ hb
    have h2 := byteLen_take_drop
      ((lines.getD sl []).take (min ec (lines.getD sl []).length)) sc
    rw [h1] at h2
    omega
  · rw [if_neg heq]
    have hlt : sl < el := by
      rcases hlex with h | ⟨h, _⟩
      · exact h
      · exact absurd h heq
    unfold computeStartOffset
    have e1 := byteLen_take_drop (lines.getD sl []) sc
    have hsum_succ : ((lines.take (sl + 1)).map (fun l => byteLen l + 1)).sum
        = ((lines.take sl).map (fun l => byteLen l + 1)).sum
          + (byteLen (lines.getD sl []) + 1) := by
      rw [List.take_succ, List.map_append, List.sum_append,
        List.getElem?_eq_getElem hsl]
      simp [List.getD, List.getElem?_eq_getElem hsl]
    have e3 : ((lines.take el).map (fun l => byteLen l + 1)).sum
        = ((lines.take (sl + 1)).map (fun l => byteLen l + 1)).sum
          + (((lines.drop (sl + 1)).take (el - (sl + 1))).map
              (fun l => byteLen l + 1)).sum := by
      have hsplit : lines.take el
          = lines.take (sl + 1) ++ (lines.drop (sl + 1)).take (el - (sl + 1)) := by
        have h' : el = (sl + 1) + (el - (sl + 1)) := by omega
        conv_lhs => rw [h']
        exact takeAddSplit lines (sl + 1) (el - (sl + 1))
      rw [hsplit, List.map_append, List.sum_append]
    omega

/-- Counterexample to C9: the claim fails for buffers with `\r\n` line
endings. For the buffer `"ab\r\né"` and the range (1,1)-(1,1) — which
satisfies the claimed precondition (`start <= end`, lines in bounds,
start column at most the line's character count) — the computed splice
offset lands inside the two-byte UTF-8 encoding of `'é'`, not on a
character boundary, so the Rust `replace_range` call would panic instead
of returning `Ok`. The `\r` stripped by `lines()` is missing from the
offset arithmetic. -/
theorem claim_C9_counterexample :
    ((1 : Nat) < 1 ∨ (1 = 1 ∧ (1 : Nat) ≤ 1))
    ∧ 1 < (rustLines "ab\r\né".data).length
    ∧ 1 ≤ ((rustLines "ab\r\né".data).getD 1 []).length
    ∧ isBoundary "ab\r\né".data
        (computeStartOffset (rustLines "ab\r\né".data) 1 1) = false := by
  refine ⟨Or.inr ⟨rfl, le_refl 1⟩, by decide, by decide, by decide⟩

/-- Claim C9 (amended): for every carriage-return-free buffer and every
edit whose range satisfies `start <= end` lexicographically, has both
lines strictly below the buffer's line count, and has its start column
at most the start line's character count, `apply_incremental_change`
returns `Ok`, and the byte splice it performs is in bounds and on UTF-8
character boundaries (`start offset <= end offset <= buffer byte
length`, both offsets on character boundaries); both error branches are
unreachable under this precondition. -/
theorem claim_C9_amended (content : String) (r : Range) (newText : String)
    (hcr : '\r' ∉ content.data)
    (hlex : r.start.line < r.endPos.line
      ∨ (r.start.line = r.endPos.line ∧ r.start.character ≤ r.endPos.character))
    (hend : r.endPos.line < (rustLines content.data).length)
    (hcol : r.start.character ≤ ((rustLines content.data).getD r.start.line []).length) :
    (∃ out, apply_incremental_change content r newText = .ok out)
    ∧ computeStartOffset (rustLines content.data) r.start.line r.start.character
        ≤ computeEndOffset (rustLines content.data) r.start.line r.start.character
            r.endPos.line r.endPos.character
    ∧ computeEndOffset (rustLines content.data) r.start.line r.start.character
        r.endPos.line r.endPos.character ≤ byteLen content.data
    ∧ isBoundary content.data
        (computeStartOffset (rustLines content.data) r.start.line r.start.character) = true
    ∧ isBoundary content.data
        (computeEndOffset (rustLines content.data) r.start.line r.start.character
          r.endPos.line r.endPos.character) = true := by
  have hstart : r.start.line < (rustLines content.data).length := by omega
  have hkend : min r.endPos.character ((rustLines content.data).getD r.endPos.line []).length
      ≤ ((rustLines content.data).getD r.endPos.line []).length := min_le_right _ _
  obtain ⟨hso, hsle⟩ :=
    offset_take content.data hcr r.start.line r.start.character hstart hcol
  obtain ⟨heo, hele⟩ :=
    offset_take content.data hcr r.endPos.line
      (min r.endPos.character ((rustLines content.data).getD r.endPos.line []).length)
      hend hkend
  have hecanon :=
    computeEndOffset_canon (rustLines content.data) r.start.line r.start.character
      r.endPos.line r.endPos.character hstart hend hlex hcol
  have hmono : (joinNl ((rustLines content.data).take r.start.line)).length
        + r.start.character
      ≤ (joinNl ((rustLines content.data).take r.endPos.line)).length
        + min r.endPos.character ((rustLines content.data).getD r.endPos.line []).length := by
    rcases hlex with hlt | ⟨heq, hle⟩
    · have hjsucc : (joinNl ((rustLines content.data).take (r.start.line + 1))).length
          = (joinNl ((rustLines content.data).take r.start.line)).length
            + (((rustLines content.data).getD r.start.line []).length + 1) := by
        rw [List.take_succ, joinNl_append, List.getElem?_eq_getElem hstart,
          List.length_append]
        simp [joinNl, List.getD, List.getElem?_eq_getElem hstart]
      have hmono2 : (joinNl ((rustLines content.data).take (r.start.line + 1))).length
          ≤ (joinNl ((rustLines content.data).take r.endPos.line)).length := by
        have h' : r.endPos.line = (r.start.line + 1)
            + (r.endPos.line - (r.start.line + 1)) := by omega
        have hsplit : (rustLines content.data).take r.endPos.line
            = (rustLines content.data).take (r.start.line + 1)
              ++ ((rustLines content.data).drop (r.start.line + 1)).take
                  (r.endPos.line - (r.start.line + 1)) := by
          conv_lhs => rw [h']
          exact takeAddSplit _ _ _
        rw [hsplit, joinNl_append, List.length_append]
        omega
      omega
    · rw [heq] at hcol ⊢
      have : r.start.character
          ≤ min r.endPos.character ((rustLines content.data).getD r.endPos.line []).length := by
        rw [← heq] at hcol ⊢
        omega
      omega
  refine ⟨?_, ?_, ?_, ?_, ?_⟩
  · unfold apply_incremental_change
    dsimp only
    rw [if_neg ?hc1, if_neg ?hc2]
    · exact ⟨_, rfl⟩
    case hc1 =>
      simp only [Bool.or_eq_true, decide_eq_true_eq, not_or]
      omega
    case hc2 => omega
  · rw [hecanon, hso, heo]
    exact byteLen_take_mono content.data hmono
  · rw [hecanon, heo]
    exact byteLen_take_le _ _
  · rw [hso]
    exact isBoundary_take _ _
  · rw [hecanon, heo]
    exact isBoundary_take _ _

/-- Witness for C9 (amended): the two-line buffer `"héllo\nworld"` with
the multi-line edit range (0,2)-(1,3). -/
theorem claim_C9_witness :
    (∃ out, apply_incremental_change "héllo\nworld" ⟨⟨0, 2⟩, ⟨1, 3⟩⟩ "X" = .ok out)
    ∧ computeStartOffset (rustLines "héllo\nworld".data) 0 2
        ≤ computeEndOffset (rustLines "héllo\nworld".data) 0 2 1 3
    ∧ computeEndOffset (rustLines "héllo\nworld".data) 0 2 1 3
        ≤ byteLen "héllo\nworld".data
    ∧ isBoundary "héllo\nworld".data
        (computeStartOffset (rustLines "héllo\nworld".data) 0 2) = true
    ∧ isBoundary "héllo\nworld".data
        (computeEndOffset (rustLines "héllo\nworld".data) 0 2 1 3) = true :=
  claim_C9_amended "héllo\nworld" ⟨⟨0, 2⟩, ⟨1, 3⟩⟩ "X" (by decide)
    (Or.inl (by decide)) (by decide) (by decide)
